import Mathlib

/-!
Shallow embedding of the migration planning and execution engine of
`migrate.go` (package `migrate`), together with proofs of the spec's
claims about it.

Modelling choices:
* Go strings are compared bytewise; for UTF-8 encoded strings this agrees
  with codepoint-lexicographic comparison, embedded here as `lexLe` on
  `String.data` (Lean's builtin `String` order is not kernel-reducible).
* `sort.Sort(byId(migrations))` sorts by `Id` with `<`; it is embedded as
  an insertion sort `sortById`, proved sorted and a permutation.
* The database is a `DbState`: the `gorp_migrations` ledger (list of
  record ids) plus a log of committed statements standing for the target
  schema.  Driver failures are injected through an `Env` of
  failure oracles; `Env.ok` is the failure-free driver.
* Every externally visible driver call is recorded as an `Event`, so that
  statements about "no table access", "rollback issued" or "transaction
  left open" are statements about the event trace.
-/

namespace SqlMigrate

/-- Bytewise (codepoint-lexicographic) `<=` on character lists, as Go
compares strings. -/
def lexLe : List Char → List Char → Bool
  | [], _ => true
  | _ :: _, [] => false
  | a :: as, b :: bs =>
    if a.toNat = b.toNat then lexLe as bs
    else decide (a.toNat < b.toNat)

/-- Go's `a <= b` on strings. -/
def strLe (a b : String) : Bool := lexLe a.data b.data

/-- Go's `a < b` on strings (equivalently, not `b <= a`). -/
def strLt (a b : String) : Bool := !(strLe b a)

/-- `MigrationDirection`: the two public directions. -/
inductive MigrationDirection where
  | Up
  | Down
  deriving DecidableEq, Repr

/-- `Migration`: id plus up/down statement lists. -/
structure Migration where
  Id : String
  Up : List String
  Down : List String
  deriving DecidableEq, Repr

/-- `PlannedMigration`: a migration paired with its direction-resolved
statement list. -/
structure PlannedMigration where
  toMigration : Migration
  Queries : List String
  deriving DecidableEq, Repr

/-- The keys of the `MigrationDialects` map: the supported dialects. -/
def MigrationDialects : List String :=
  ["sqlite3", "postgres", "mysql", "mssql", "oci8"]

/-- Ordering used by `sort.Sort(byId(migrations))`: `b[i].Id < b[j].Id`. -/
def migLe (a b : Migration) : Bool := strLe a.Id b.Id

/-- Insert into a list sorted by id (helper for `sortById`). -/
def insertSorted (m : Migration) : List Migration → List Migration
  | [] => [m]
  | x :: xs => if migLe m x then m :: x :: xs else x :: insertSorted m xs

/-- Embedding of `sort.Sort(byId(migrations))`. -/
def sortById : List Migration → List Migration
  | [] => []
  | m :: ms => insertSorted m (sortById ms)

/-- The `SELECT * FROM gorp_migrations ORDER BY id DESC LIMIT 1` query:
the maximum id in the ledger, or `""` (the zero value left in `record`
by `sql.ErrNoRows`) when the ledger is empty. -/
def newestRecord (ledger : List String) : String :=
  ledger.foldl (fun acc x => if strLe acc x then x else acc) ""

/-- The scan loop of `ToApply`: starting from `index = -1`, advance while
`migrations[index+1].Id <= current`.  Returns `index + 1` (a `Nat`, so
cursor `-1` is represented by `0`). -/
def scanIndex : List Migration → String → Nat
  | [], _ => 0
  | m :: rest, current =>
    if strLe m.Id current then scanIndex rest current + 1 else 0

/-- Embedding of `ToApply`: filter a slice of migrations into ones that
should be applied. -/
def ToApply (migrations : List Migration) (current : String)
    (direction : MigrationDirection) : List Migration :=
  match direction with
  | .Up => migrations.drop (scanIndex migrations current)
  | .Down =>
    if scanIndex migrations current = 0 then []
    else (migrations.take (scanIndex migrations current)).reverse

/-- Observable driver calls, for statements about traces. -/
inductive Event where
  | createTable
  | findMigrations
  | selectRecord
  | beginTx
  | execStmt (s : String)
  | insertRecord (id : String)
  | deleteRecord (id : String)
  | commit
  | rollback
  deriving DecidableEq, Repr

/-- Failure oracles for the underlying driver. -/
structure Env where
  stmtFails : String → Bool
  insertFails : String → Bool
  deleteFails : String → Bool
  beginFails : String → Bool
  commitFails : String → Bool

/-- The failure-free driver. -/
def Env.ok : Env :=
  { stmtFails := fun _ => false
    insertFails := fun _ => false
    deleteFails := fun _ => false
    beginFails := fun _ => false
    commitFails := fun _ => false }

/-- Database state: the `gorp_migrations` ledger and the committed
statement log standing for the target schema. -/
structure DbState where
  ledger : List String
  schema : List String
  deriving DecidableEq, Repr

/-- Result of `ExecMax`: applied count, error, final state, trace. -/
structure ExecOutcome where
  applied : Nat
  err : Option String
  db : DbState
  events : List Event
  deriving DecidableEq, Repr

/-- Embedding of `getMigrationDbMap`: dialect lookup, failing with
`Unknown dialect` before anything else happens. -/
def getMigrationDbMap (dialect : String) : Except String Unit :=
  if dialect ∈ MigrationDialects then Except.ok ()
  else Except.error ("Unknown dialect: " ++ dialect)

/-- The loop body of `PlanMigration`: wrap a migration, resolving
`Queries` to its `Up` or `Down` list according to the direction. -/
def resolveQueries (dir : MigrationDirection) (v : Migration) :
    PlannedMigration :=
  { toMigration := v
    Queries :=
      match dir with
      | .Up => v.Up
      | .Down => v.Down }

/-- The planned list computed by `PlanMigration` once the dialect check
has passed: sort, read the watermark, `ToApply`, cap, resolve queries. -/
def plannedFor (source : List Migration) (dir : MigrationDirection)
    (maxN : Nat) (st : DbState) : List PlannedMigration :=
  let sorted := sortById source
  let current := newestRecord st.ledger
  let toApply := ToApply sorted current dir
  let toApplyCount :=
    if 0 < maxN ∧ maxN < toApply.length then maxN else toApply.length
  (toApply.take toApplyCount).map (resolveQueries dir)

/-- Embedding of `PlanMigration`: dialect check, then table creation,
source read, watermark query (each recorded in the trace), then the pure
plan computation. -/
def PlanMigration (dialect : String) (source : List Migration)
    (dir : MigrationDirection) (maxN : Nat) (st : DbState) :
    Except String (List PlannedMigration) × List Event :=
  match getMigrationDbMap dialect with
  | .error e => (Except.error e, [])
  | .ok _ =>
    (Except.ok (plannedFor source dir maxN st),
     [Event.createTable, Event.findMigrations, Event.selectRecord])

/-- Error tag for a failed statement. -/
def stmtErr (s : String) : String := "statement failed: " ++ s

/-- The inner statement loop of `ExecMax`: execute each statement in
order, stopping at the first failure. -/
def runStmts (env : Env) : List String → List Event × Option String
  | [] => ([], none)
  | s :: rest =>
    if env.stmtFails s then ([Event.execStmt s], some (stmtErr s))
    else
      let r := runStmts env rest
      (Event.execStmt s :: r.1, r.2)

/-- One iteration of the `ExecMax` loop: begin a transaction, run the
statements (rolling back on failure), write the ledger record (returning
WITHOUT rollback on failure, as the code does), commit.  Returns the
events, the error if any, and the resulting committed state. -/
def execOne (env : Env) (dir : MigrationDirection) (st : DbState)
    (pm : PlannedMigration) : List Event × Option String × DbState :=
  if env.beginFails pm.toMigration.Id then ([], some "begin failed", st)
  else
    let r := runStmts env pm.Queries
    match r.2 with
    | some e => (Event.beginTx :: r.1 ++ [Event.rollback], some e, st)
    | none =>
      match dir with
      | .Up =>
        if env.insertFails pm.toMigration.Id then
          (Event.beginTx :: r.1 ++ [Event.insertRecord pm.toMigration.Id],
           some "insert failed", st)
        else if env.commitFails pm.toMigration.Id then
          (Event.beginTx :: r.1 ++ [Event.insertRecord pm.toMigration.Id],
           some "commit failed", st)
        else
          (Event.beginTx :: r.1 ++
             [Event.insertRecord pm.toMigration.Id, Event.commit],
           none,
           { ledger := st.ledger ++ [pm.toMigration.Id]
             schema := st.schema ++ pm.Queries })
      | .Down =>
        if env.deleteFails pm.toMigration.Id then
          (Event.beginTx :: r.1 ++ [Event.deleteRecord pm.toMigration.Id],
           some "delete failed", st)
        else if env.commitFails pm.toMigration.Id then
          (Event.beginTx :: r.1 ++ [Event.deleteRecord pm.toMigration.Id],
           some "commit failed", st)
        else
          (Event.beginTx :: r.1 ++
             [Event.deleteRecord pm.toMigration.Id, Event.commit],
           none,
           { ledger := st.ledger.erase pm.toMigration.Id
             schema := st.schema ++ pm.Queries })

/-- The `for _, migration := range migrations` loop of `ExecMax`. -/
def applyLoop (env : Env) (dir : MigrationDirection) :
    List PlannedMigration → DbState → Nat →
    Nat × Option String × DbState × List Event
  | [], st, n => (n, none, st, [])
  | pm :: rest, st, n =>
    let r := execOne env dir st pm
    match r.2.1 with
    | some e => (n, some e, r.2.2, r.1)
    | none =>
      let r2 := applyLoop env dir rest r.2.2 (n + 1)
      (r2.1, r2.2.1, r2.2.2.1, r.1 ++ r2.2.2.2)

/-- Embedding of `ExecMax`. -/
def ExecMax (env : Env) (dialect : String) (source : List Migration)
    (dir : MigrationDirection) (maxN : Nat) (st : DbState) : ExecOutcome :=
  match PlanMigration dialect source dir maxN st with
  | (Except.error e, evs) => ⟨0, some e, st, evs⟩
  | (Except.ok planned, evs) =>
    let r := applyLoop env dir planned st 0
    ⟨r.1, r.2.1, r.2.2.1, evs ++ r.2.2.2⟩

/-- Embedding of `Exec`: `ExecMax` with no cap. -/
def Exec (env : Env) (dialect : String) (source : List Migration)
    (dir : MigrationDirection) (st : DbState) : ExecOutcome :=
  ExecMax env dialect source dir 0 st

/-- First failing statement of a list, if any. -/
def firstFail (env : Env) : List String → Option String
  | [] => none
  | s :: rest => if env.stmtFails s then some s else firstFail env rest

/-- Whether a planned migration runs to commit under `env`. -/
def migSucceeds (env : Env) (dir : MigrationDirection)
    (pm : PlannedMigration) : Bool :=
  !env.beginFails pm.toMigration.Id &&
  (firstFail env pm.Queries).isNone &&
  (match dir with
   | .Up => !env.insertFails pm.toMigration.Id
   | .Down => !env.deleteFails pm.toMigration.Id) &&
  !env.commitFails pm.toMigration.Id

/-- State after committing one migration. -/
def commitState (dir : MigrationDirection) (st : DbState)
    (pm : PlannedMigration) : DbState :=
  match dir with
  | .Up => { ledger := st.ledger ++ [pm.toMigration.Id]
             schema := st.schema ++ pm.Queries }
  | .Down => { ledger := st.ledger.erase pm.toMigration.Id
               schema := st.schema ++ pm.Queries }

/-- State after committing a list of migrations in order. -/
def runPlanned (dir : MigrationDirection) (st : DbState)
    (l : List PlannedMigration) : DbState :=
  l.foldl (commitState dir) st

/-- Trace of one fully successful migration. -/
def migEvents (dir : MigrationDirection) (pm : PlannedMigration) :
    List Event :=
  Event.beginTx :: pm.Queries.map Event.execStmt ++
    (match dir with
     | .Up => [Event.insertRecord pm.toMigration.Id, Event.commit]
     | .Down => [Event.deleteRecord pm.toMigration.Id, Event.commit])

/-- A migration list sorted ascending by id. -/
def IdSorted (ms : List Migration) : Prop :=
  List.Pairwise (fun a b => strLe a.Id b.Id = true) ms

instance (ms : List Migration) : Decidable (IdSorted ms) :=
  inferInstanceAs (Decidable (List.Pairwise _ ms))

/-! ### Concrete fixtures used by witnesses and counterexamples -/

def migA : Migration := ⟨"001", ["CREATE TABLE t(x int)"], ["DROP TABLE t"]⟩

def migB : Migration := ⟨"002", ["ALTER TABLE t ADD y int"], ["ALTER TABLE t DROP COLUMN y"]⟩

def migC : Migration := ⟨"003", ["CREATE INDEX i ON t(x)"], ["DROP INDEX i"]⟩

/-- A migration whose second statement fails under `envBoom`. -/
def migBad : Migration := ⟨"002", ["ALTER TABLE t ADD y int", "BOOM"], ["ok"]⟩

/-- Driver in which exactly the statement `BOOM` fails. -/
def envBoom : Env :=
  { stmtFails := fun s => s == "BOOM"
    insertFails := fun _ => false
    deleteFails := fun _ => false
    beginFails := fun _ => false
    commitFails := fun _ => false }

/-- Driver in which every ledger insert fails (statements succeed). -/
def envInsertFail : Env :=
  { stmtFails := fun _ => false
    insertFails := fun _ => true
    deleteFails := fun _ => false
    beginFails := fun _ => false
    commitFails := fun _ => false }

/-! ### Basic facts about the string order -/

theorem lexLe_nil (bs : List Char) : lexLe [] bs = true := rfl

theorem lexLe_refl (as : List Char) : lexLe as as = true := by
  induction as with
  | nil => rfl
  | cons a as ih => simp [lexLe, ih]

theorem lexLe_trans {as bs cs : List Char} (hab : lexLe as bs = true)
    (hbc : lexLe bs cs = true) : lexLe as cs = true := by
  induction as generalizing bs cs with
  | nil => rfl
  | cons a as ih =>
    cases bs with
    | nil => simp [lexLe] at hab
    | cons b bs =>
      cases cs with
      | nil => simp [lexLe] at hbc
      | cons c cs =>
        simp only [lexLe] at hab hbc ⊢
        by_cases h1 : a.toNat = b.toNat
        · by_cases h2 : b.toNat = c.toNat
          · simp [h1] at hab
            simp [h2] at hbc
            simp [h1, h2]
            exact ih hab hbc
          · simp [h1] at hab
            simp [h2] at hbc
            rw [if_neg (by omega)]
            simp only [decide_eq_true_eq]
            omega
        · by_cases h2 : b.toNat = c.toNat
          · simp [h1] at hab
            rw [if_neg (by omega)]
            simp only [decide_eq_true_eq]
            omega
          · simp [h1] at hab
            simp [h2] at hbc
            rw [if_neg (by omega)]
            simp only [decide_eq_true_eq]
            omega

theorem lexLe_total (as bs : List Char) : lexLe as bs = true ∨ lexLe bs as = true := by
  induction as generalizing bs with
  | nil => exact Or.inl rfl
  | cons a as ih =>
    cases bs with
    | nil => exact Or.inr rfl
    | cons b bs =>
      simp only [lexLe]
      by_cases h : a.toNat = b.toNat
      · simpa [h] using ih bs
      · rw [if_neg h, if_neg (Ne.symm h)]
        simp only [decide_eq_true_eq]
        omega

theorem strLe_refl (a : String) : strLe a a = true := lexLe_refl a.data

theorem strLe_trans {a b c : String} (hab : strLe a b = true)
    (hbc : strLe b c = true) : strLe a c = true := lexLe_trans hab hbc

theorem strLe_total (a b : String) : strLe a b = true ∨ strLe b a = true :=
  lexLe_total a.data b.data

theorem strLe_of_not_strLe {a b : String} (h : ¬ strLe a b = true) :
    strLe b a = true := (strLe_total a b).resolve_left h

theorem strLe_empty (a : String) : strLe "" a = true := lexLe_nil a.data

/-! ### The scan loop of `ToApply` -/

theorem scanIndex_le_length (ms : List Migration) (w : String) :
    scanIndex ms w ≤ ms.length := by
  induction ms with
  | nil => exact Nat.le_refl 0
  | cons m rest ih =>
    simp only [scanIndex, List.length_cons]
    by_cases h : strLe m.Id w = true
    · rw [if_pos h]
      omega
    · rw [if_neg h]
      omega

theorem take_scanIndex (ms : List Migration) (w : String) :
    ms.take (scanIndex ms w) = ms.takeWhile (fun m => strLe m.Id w) := by
  induction ms with
  | nil => rfl
  | cons m rest ih =>
    simp only [scanIndex, List.takeWhile_cons]
    by_cases h : strLe m.Id w = true
    · rw [if_pos h, if_pos h, List.take_succ_cons, ih]
    · rw [if_neg h, if_neg h, List.take_zero]

theorem drop_scanIndex (ms : List Migration) (w : String) :
    ms.drop (scanIndex ms w) = ms.dropWhile (fun m => strLe m.Id w) := by
  induction ms with
  | nil => rfl
  | cons m rest ih =>
    simp only [scanIndex, List.dropWhile_cons]
    by_cases h : strLe m.Id w = true
    · rw [if_pos h, if_pos h, List.drop_succ_cons, ih]
    · rw [if_neg h, if_neg h, List.drop_zero]

/-- In a sorted list whose head is beyond the watermark, every tail
element is beyond the watermark too. -/
theorem sorted_all_gt {m : Migration} {rest : List Migration} {w : String}
    (hs : IdSorted (m :: rest)) (h : ¬ strLe m.Id w = true) :
    ∀ x ∈ rest, ¬ strLe x.Id w = true := by
  intro x hx hxw
  exact h (strLe_trans ((List.pairwise_cons.1 hs).1 x hx) hxw)

theorem sorted_takeWhile_eq_filter {ms : List Migration} {w : String}
    (hs : IdSorted ms) :
    ms.takeWhile (fun m => strLe m.Id w) = ms.filter (fun m => strLe m.Id w) := by
  induction ms with
  | nil => rfl
  | cons m rest ih =>
    simp only [List.takeWhile_cons, List.filter_cons]
    by_cases h : strLe m.Id w = true
    · rw [if_pos h, if_pos h, ih (List.pairwise_cons.1 hs).2]
    · rw [if_neg h, if_neg h]
      have hall := sorted_all_gt hs h
      rw [List.filter_eq_nil_iff.2 fun x hx => by simpa using hall x hx]

theorem sorted_dropWhile_eq_filter {ms : List Migration} {w : String}
    (hs : IdSorted ms) :
    ms.dropWhile (fun m => strLe m.Id w) = ms.filter (fun m => strLt w m.Id) := by
  induction ms with
  | nil => rfl
  | cons m rest ih =>
    simp only [List.dropWhile_cons, List.filter_cons]
    by_cases h : strLe m.Id w = true
    · rw [if_pos h, if_neg (by simp [strLt, h]), ih (List.pairwise_cons.1 hs).2]
    · rw [if_neg h, if_pos (by simp [strLt, h])]
      have hall := sorted_all_gt hs h
      rw [List.filter_eq_self.2 fun x hx => by
        simp [strLt]
        simpa using hall x hx]

/-! ### Claims about `ToApply` -/

/-- C2: for every list of migration definitions sorted ascending by id and
every watermark, `ToApply` with direction `Up` returns exactly the
definitions whose ids are strictly greater than the watermark, in their
ascending order — the whole list when no id is `<=` the watermark. -/
theorem toApply_up_suffix (ms : List Migration) (w : String) (hs : IdSorted ms) :
    ToApply ms w MigrationDirection.Up = ms.filter (fun m => strLt w m.Id) ∧
    ((∀ m ∈ ms, ¬ strLe m.Id w = true) → ToApply ms w MigrationDirection.Up = ms) := by
  have h1 : ToApply ms w MigrationDirection.Up = ms.filter (fun m => strLt w m.Id) := by
    show ms.drop (scanIndex ms w) = _
    rw [drop_scanIndex, sorted_dropWhile_eq_filter hs]
  refine ⟨h1, fun hall => ?_⟩
  rw [h1]
  refine List.filter_eq_self.2 fun x hx => ?_
  simp only [strLt, Bool.not_eq_true']
  exact Bool.not_eq_true _ ▸ Bool.of_not_eq_true (hall x hx)

/-- Witness for `toApply_up_suffix` at a concrete sorted list. -/
theorem toApply_up_suffix_witness :
    ToApply [migA, migB] "001" MigrationDirection.Up =
      List.filter (fun m => strLt "001" m.Id) [migA, migB] ∧
    List.filter (fun m => strLt "001" m.Id) [migA, migB] = [migB] :=
  ⟨(toApply_up_suffix [migA, migB] "001" (by decide)).1, by decide⟩

/-- C3: for every list of migration definitions sorted ascending by id and
every watermark, `ToApply` with direction `Down` returns the prefix of
definitions with ids `<=` the watermark, reversed (newest first), and the
empty list when no definition id qualifies. -/
theorem toApply_down_reversed (ms : List Migration) (w : String) (hs : IdSorted ms) :
    ToApply ms w MigrationDirection.Down =
      (ms.filter (fun m => strLe m.Id w)).reverse ∧
    ((∀ m ∈ ms, ¬ strLe m.Id w = true) → ToApply ms w MigrationDirection.Down = []) := by
  have hTake : ToApply ms w MigrationDirection.Down =
      (ms.take (scanIndex ms w)).reverse := by
    show (if scanIndex ms w = 0 then [] else (ms.take (scanIndex ms w)).reverse) = _
    by_cases h : scanIndex ms w = 0
    · rw [if_pos h, h, List.take_zero, List.reverse_nil]
    · rw [if_neg h]
  have h1 : ToApply ms w MigrationDirection.Down =
      (ms.filter (fun m => strLe m.Id w)).reverse := by
    rw [hTake, take_scanIndex, sorted_takeWhile_eq_filter hs]
  refine ⟨h1, fun hall => ?_⟩
  rw [h1, List.filter_eq_nil_iff.2 fun x hx => by
    simpa using hall x hx, List.reverse_nil]

/-- Witness for `toApply_down_reversed` at a concrete sorted list. -/
theorem toApply_down_reversed_witness :
    ToApply [migA, migB, migC] "002" MigrationDirection.Down =
      (List.filter (fun m => strLe m.Id "002") [migA, migB, migC]).reverse ∧
    (List.filter (fun m => strLe m.Id "002") [migA, migB, migC]).reverse = [migB, migA] :=
  ⟨(toApply_down_reversed [migA, migB, migC] "002" (by decide)).1, by decide⟩

/-- C6: on a sorted list the scan of `ToApply` computes the cursor: writing
`scanIndex` for cursor + 1, an index `i` satisfies `sorted[i].id <= watermark`
exactly when `i < scanIndex`, so cursor is the greatest such index (`-1`,
i.e. `scanIndex = 0`, when none qualify) — also when the watermark id is
absent from the list. -/
theorem scanIndex_greatest (ms : List Migration) (w : String) (hs : IdSorted ms) :
    scanIndex ms w ≤ ms.length ∧
    ∀ i (h : i < ms.length),
      (strLe (ms.get ⟨i, h⟩).Id w = true ↔ i < scanIndex ms w) := by
  refine ⟨scanIndex_le_length ms w, ?_⟩
  induction ms with
  | nil => intro i h; simp at h
  | cons m rest ih =>
    intro i h
    simp only [scanIndex]
    by_cases hm : strLe m.Id w = true
    · rw [if_pos hm]
      cases i with
      | zero => simpa using hm
      | succ j =>
        have hj : j < rest.length := by simpa using h
        have := ih (List.pairwise_cons.1 hs).2 j hj
        simpa [List.get] using this
    · rw [if_neg hm]
      cases i with
      | zero => simpa using hm
      | succ j =>
        have hj : j < rest.length := by simpa using h
        have hx := sorted_all_gt hs hm (rest.get ⟨j, hj⟩) (rest.get_mem _ _)
        simpa [List.get] using hx

/-- Witness for `scanIndex_greatest`: watermark `002` absent from the
list with ids `001`, `003`; the cursor lands on `001`. -/
theorem scanIndex_greatest_witness :
    (strLe migA.Id "002" = true ↔ 0 < scanIndex [migA, migC] "002") ∧
    (strLe migC.Id "002" = true ↔ 1 < scanIndex [migA, migC] "002") := by
  have h := scanIndex_greatest [migA, migC] "002" (by decide)
  exact ⟨h.2 0 (by decide), h.2 1 (by decide)⟩

/-- C10: `ToApply` is total for both public directions: the scan index
never leaves the list's bounds, the result's members and length are
bounded by the input, and on the empty input both directions return the
empty list. -/
theorem toApply_total (ms : List Migration) (w : String) (dir : MigrationDirection) :
    scanIndex ms w ≤ ms.length ∧
    (∀ m ∈ ToApply ms w dir, m ∈ ms) ∧
    (ToApply ms w dir).length ≤ ms.length ∧
    ToApply [] w dir = [] := by
  refine ⟨scanIndex_le_length ms w, ?_, ?_, ?_⟩
  · intro m hm
    cases dir with
    | Up => exact List.mem_of_mem_drop hm
    | Down =>
      simp only [ToApply] at hm
      by_cases h : scanIndex ms w = 0
      · rw [if_pos h] at hm
        simp at hm
      · rw [if_neg h] at hm
        exact List.mem_of_mem_take (List.mem_reverse.1 hm)
  · cases dir with
    | Up =>
      show (ms.drop (scanIndex ms w)).length ≤ ms.length
      rw [List.length_drop]
      omega
    | Down =>
      simp only [ToApply]
      by_cases h : scanIndex ms w = 0
      · rw [if_pos h]
        simp
      · rw [if_neg h, List.length_reverse, List.length_take]
        omega
  · cases dir with
    | Up => rfl
    | Down => rfl

/-- Witness for `toApply_total` at a concrete input. -/
theorem toApply_total_witness :
    migB ∈ ToApply [migA, migB] "001" MigrationDirection.Up ∧ migB ∈ [migA, migB] :=
  ⟨by decide, (toApply_total [migA, migB] "001" MigrationDirection.Up).2.1 migB (by decide)⟩

/-! ### Claims about `PlanMigration` and the dialect check -/

theorem planMigration_valid_ok (dialect : String) (source : List Migration)
    (dir : MigrationDirection) (maxN : Nat) (st : DbState)
    (hd : dialect ∈ MigrationDialects) :
    (PlanMigration dialect source dir maxN st).1 =
      Except.ok (plannedFor source dir maxN st) := by
  simp [PlanMigration, getMigrationDbMap, hd]

/-- C9: for every dialect not among the supported dialects,
`PlanMigration` fails with an unknown-dialect error and an empty trace —
no table creation, no source read, no watermark query, no transaction —
and `ExecMax` returns applied count `0` with the database untouched. -/
theorem unknown_dialect_fails_early (env : Env) (dialect : String)
    (source : List Migration) (dir : MigrationDirection) (maxN : Nat)
    (st : DbState) (hd : dialect ∉ MigrationDialects) :
    PlanMigration dialect source dir maxN st =
      (Except.error ("Unknown dialect: " ++ dialect), []) ∧
    ExecMax env dialect source dir maxN st =
      ⟨0, some ("Unknown dialect: " ++ dialect), st, []⟩ := by
  have hplan : PlanMigration dialect source dir maxN st =
      (Except.error ("Unknown dialect: " ++ dialect), []) := by
    simp [PlanMigration, getMigrationDbMap, hd]
  exact ⟨hplan, by simp [ExecMax, hplan]⟩

/-- Witness for `unknown_dialect_fails_early` at dialect `foo`. -/
theorem unknown_dialect_fails_early_witness :
    ExecMax Env.ok "foo" [migA] MigrationDirection.Up 0 ⟨[], []⟩ =
      ⟨0, some "Unknown dialect: foo", ⟨[], []⟩, []⟩ :=
  (unknown_dialect_fails_early Env.ok "foo" [migA] MigrationDirection.Up 0
    ⟨[], []⟩ (by decide)).2

/-- C5: cap semantics of `PlanMigration`: with a supported dialect it
plans `plannedFor`; when `max > 0` the plan is the first `max` entries of
the pending list in its established order (hence at most `max` of them),
and when `max = 0` the pending list is not truncated. -/
theorem planMigration_cap (dialect : String) (source : List Migration)
    (dir : MigrationDirection) (maxN : Nat) (st : DbState)
    (hd : dialect ∈ MigrationDialects) :
    (PlanMigration dialect source dir maxN st).1 =
      Except.ok (plannedFor source dir maxN st) ∧
    (0 < maxN → (plannedFor source dir maxN st).length ≤ maxN ∧
      (plannedFor source dir maxN st).map PlannedMigration.toMigration =
        (ToApply (sortById source) (newestRecord st.ledger) dir).take maxN) ∧
    (maxN = 0 → (plannedFor source dir maxN st).map PlannedMigration.toMigration =
        ToApply (sortById source) (newestRecord st.ledger) dir) := by
  have hplan := planMigration_valid_ok dialect source dir maxN st hd
  set pending := ToApply (sortById source) (newestRecord st.ledger) dir with hp
  have hmap : ∀ l : List Migration,
      (l.map (resolveQueries dir)).map PlannedMigration.toMigration = l := by
    intro l
    rw [List.map_map]
    have hcomp : PlannedMigration.toMigration ∘ resolveQueries dir = id :=
      funext fun _ => rfl
    rw [hcomp, List.map_id]
  have hfor : plannedFor source dir maxN st =
      (pending.take (if 0 < maxN ∧ maxN < pending.length then maxN
                     else pending.length)).map (resolveQueries dir) := rfl
  refine ⟨hplan, fun hpos => ?_, fun hzero => ?_⟩
  · by_cases hlt : maxN < pending.length
    · rw [hfor, if_pos ⟨hpos, hlt⟩]
      refine ⟨?_, hmap _⟩
      rw [List.length_map, List.length_take]
      omega
    · rw [hfor, if_neg (by omega)]
      have htake : pending.take pending.length = pending.take maxN := by
        rw [List.take_length, List.take_of_length_le (by omega)]
      rw [htake]
      refine ⟨?_, hmap _⟩
      rw [List.length_map, List.length_take]
      omega
  · rw [hfor, if_neg (by omega), List.take_length]
    exact hmap pending

/-- Witness for `planMigration_cap`: unsorted source, cap 1 keeps only the
smallest pending id. -/
theorem planMigration_cap_witness :
    (plannedFor [migB, migA] MigrationDirection.Up 1 ⟨[], []⟩).map
        PlannedMigration.toMigration =
      (ToApply (sortById [migB, migA]) (newestRecord ([] : List String))
        MigrationDirection.Up).take 1 ∧
    (ToApply (sortById [migB, migA]) (newestRecord ([] : List String))
        MigrationDirection.Up).take 1 = [migA] :=
  ⟨((planMigration_cap "sqlite3" [migB, migA] MigrationDirection.Up 1
      ⟨[], []⟩ (by decide)).2.1 (by decide)).2, by decide⟩

/-! ### Behaviour of the executor loop -/

theorem runStmts_ok {env : Env} {qs : List String}
    (h : firstFail env qs = none) :
    runStmts env qs = (qs.map Event.execStmt, none) := by
  induction qs with
  | nil => rfl
  | cons s rest ih =>
    simp only [firstFail] at h
    by_cases hs : env.stmtFails s = true
    · rw [if_pos hs] at h
      exact absurd h (by simp)
    · rw [if_neg hs] at h
      simp only [runStmts, if_neg hs, ih h, List.map_cons]

theorem runStmts_fail {env : Env} {qs : List String} {s : String}
    (h : firstFail env qs = some s) :
    ∃ evs, runStmts env qs = (evs, some (stmtErr s)) ∧
      ∀ e ∈ evs, ∃ t, e = Event.execStmt t := by
  induction qs with
  | nil => exact absurd h (by simp [firstFail])
  | cons q rest ih =>
    simp only [firstFail] at h
    by_cases hq : env.stmtFails q = true
    · rw [if_pos hq] at h
      obtain rfl : q = s := by simpa using h
      exact ⟨[Event.execStmt q], by simp [runStmts, hq], by simp⟩
    · rw [if_neg hq] at h
      obtain ⟨evs, hrun, hall⟩ := ih h
      refine ⟨Event.execStmt q :: evs, ?_, ?_⟩
      · simp only [runStmts, if_neg hq, hrun]
      · intro e he
        rcases List.mem_cons.1 he with rfl | he
        · exact ⟨q, rfl⟩
        · exact hall e he

theorem execOne_ok {env : Env} {dir : MigrationDirection} {st : DbState}
    {pm : PlannedMigration} (h : migSucceeds env dir pm = true) :
    execOne env dir st pm = (migEvents dir pm, none, commitState dir st pm) := by
  simp only [migSucceeds, Bool.and_eq_true, Bool.not_eq_true'] at h
  obtain ⟨⟨⟨hb, hf⟩, hw⟩, hc⟩ := h
  have hff : firstFail env pm.Queries = none := by
    cases heq : firstFail env pm.Queries with
    | none => rfl
    | some s => rw [heq] at hf; simp at hf
  cases dir with
  | Up =>
    rw [Bool.not_eq_true'] at hw
    simp [execOne, hb, runStmts_ok hff, hw, hc, migEvents, commitState]
  | Down =>
    rw [Bool.not_eq_true'] at hw
    simp [execOne, hb, runStmts_ok hff, hw, hc, migEvents, commitState]

theorem execOne_stmt_fail {env : Env} {dir : MigrationDirection}
    {st : DbState} {pm : PlannedMigration} {s : String}
    (hb : env.beginFails pm.toMigration.Id = false)
    (hf : firstFail env pm.Queries = some s) :
    ∃ evs, execOne env dir st pm =
        (Event.beginTx :: (evs ++ [Event.rollback]), some (stmtErr s), st) ∧
      ∀ e ∈ evs, ∃ t, e = Event.execStmt t := by
  obtain ⟨evs, hrun, hall⟩ := runStmts_fail hf
  exact ⟨evs, by simp [execOne, hb, hrun], hall⟩

theorem applyLoop_append_ok (env : Env) (dir : MigrationDirection)
    (pre tail : List PlannedMigration) :
    ∀ (st : DbState) (n : Nat), (∀ p ∈ pre, migSucceeds env dir p = true) →
    applyLoop env dir (pre ++ tail) st n =
      ((applyLoop env dir tail (runPlanned dir st pre) (n + pre.length)).1,
       (applyLoop env dir tail (runPlanned dir st pre) (n + pre.length)).2.1,
       (applyLoop env dir tail (runPlanned dir st pre) (n + pre.length)).2.2.1,
       (pre.map (migEvents dir)).flatten ++
         (applyLoop env dir tail (runPlanned dir st pre) (n + pre.length)).2.2.2) := by
  induction pre with
  | nil => intro st n _; simp [runPlanned]
  | cons p pre ih =>
    intro st n hpre
    have hp := hpre p (List.mem_cons_self p pre)
    have hrest : ∀ q ∈ pre, migSucceeds env dir q = true :=
      fun q hq => hpre q (List.mem_cons_of_mem p hq)
    show applyLoop env dir (p :: (pre ++ tail)) st n = _
    simp only [applyLoop, execOne_ok hp]
    rw [ih (commitState dir st p) (n + 1) hrest]
    have hrp : runPlanned dir (commitState dir st p) pre =
        runPlanned dir st (p :: pre) := rfl
    simp only [hrp, List.map_cons, List.flatten_cons, List.length_cons]
    have harith : n + 1 + pre.length = n + (pre.length + 1) := by omega
    rw [harith, List.append_assoc]

theorem applyLoop_all_ok (env : Env) (dir : MigrationDirection)
    (planned : List PlannedMigration) (st : DbState) (n : Nat)
    (hok : ∀ p ∈ planned, migSucceeds env dir p = true) :
    applyLoop env dir planned st n =
      (n + planned.length, none, runPlanned dir st planned,
       (planned.map (migEvents dir)).flatten) := by
  have h := applyLoop_append_ok env dir planned [] st n hok
  rw [List.append_nil] at h
  rw [h]
  simp [applyLoop]

theorem planMigration_ok_pair {dialect : String} {source : List Migration}
    {dir : MigrationDirection} {maxN : Nat} {st : DbState}
    {l : List PlannedMigration}
    (h : (PlanMigration dialect source dir maxN st).1 = Except.ok l) :
    PlanMigration dialect source dir maxN st =
      (Except.ok l, [Event.createTable, Event.findMigrations, Event.selectRecord]) := by
  unfold PlanMigration at h ⊢
  cases hgd : getMigrationDbMap dialect with
  | error e => rw [hgd] at h; simp at h
  | ok u => rw [hgd] at h; simp at h; rw [h]

theorem firstFail_envOk (qs : List String) : firstFail Env.ok qs = none := by
  induction qs with
  | nil => rfl
  | cons q rest ih => simpa [firstFail, Env.ok] using ih

theorem migSucceeds_envOk (dir : MigrationDirection) (pm : PlannedMigration) :
    migSucceeds Env.ok dir pm = true := by
  have hb : Env.ok.beginFails pm.toMigration.Id = false := rfl
  have hi : Env.ok.insertFails pm.toMigration.Id = false := rfl
  have hdel : Env.ok.deleteFails pm.toMigration.Id = false := rfl
  have hc : Env.ok.commitFails pm.toMigration.Id = false := rfl
  cases dir <;>
    simp [migSucceeds, hb, hi, hdel, hc, firstFail_envOk]

/-- Failure-free run of `ExecMax` on a supported dialect: every planned
migration commits. -/
theorem execMax_envOk (dialect : String) (source : List Migration)
    (dir : MigrationDirection) (maxN : Nat) (st : DbState)
    (hd : dialect ∈ MigrationDialects) :
    ExecMax Env.ok dialect source dir maxN st =
      ⟨(plannedFor source dir maxN st).length, none,
       runPlanned dir st (plannedFor source dir maxN st),
       [Event.createTable, Event.findMigrations, Event.selectRecord] ++
         ((plannedFor source dir maxN st).map (migEvents dir)).flatten⟩ := by
  have hplan := planMigration_ok_pair
    (planMigration_valid_ok dialect source dir maxN st hd)
  simp only [ExecMax, hplan,
    applyLoop_all_ok Env.ok dir _ st 0 (fun p _ => migSucceeds_envOk dir p),
    Nat.zero_add]

theorem runPlanned_up_ledger (st : DbState) (l : List PlannedMigration) :
    (runPlanned MigrationDirection.Up st l).ledger =
      st.ledger ++ l.map (fun pm => pm.toMigration.Id) := by
  induction l generalizing st with
  | nil => simp [runPlanned]
  | cons p l ih =>
    show (runPlanned MigrationDirection.Up (commitState MigrationDirection.Up st p) l).ledger = _
    rw [ih]
    simp [commitState]

theorem runPlanned_down_ledger (st : DbState) (l : List PlannedMigration) :
    (runPlanned MigrationDirection.Down st l).ledger =
      (l.map (fun pm => pm.toMigration.Id)).foldl List.erase st.ledger := by
  induction l generalizing st with
  | nil => simp [runPlanned]
  | cons p l ih =>
    show (runPlanned MigrationDirection.Down
      (commitState MigrationDirection.Down st p) l).ledger = _
    rw [ih]
    simp [commitState]

theorem count_map_execStmt (qs : List String) {e : Event}
    (h : ∀ t, e ≠ Event.execStmt t) :
    (qs.map Event.execStmt).count e = 0 := by
  refine List.count_eq_zero.2 fun hmem => ?_
  obtain ⟨t, _, ht⟩ := List.mem_map.1 hmem
  exact h t ht.symm

theorem migEvents_count_beginTx (dir : MigrationDirection)
    (pm : PlannedMigration) :
    (migEvents dir pm).count Event.beginTx = 1 := by
  have hq : (pm.Queries.map Event.execStmt).count Event.beginTx = 0 :=
    count_map_execStmt _ (fun t h => by cases h)
  cases dir <;>
    simp [migEvents, List.count_cons, List.count_append, hq, List.count_singleton]

theorem migEvents_count_commit (dir : MigrationDirection)
    (pm : PlannedMigration) :
    (migEvents dir pm).count Event.commit = 1 := by
  have hq : (pm.Queries.map Event.execStmt).count Event.commit = 0 :=
    count_map_execStmt _ (fun t h => by cases h)
  cases dir <;>
    simp [migEvents, List.count_cons, List.count_append, hq, List.count_singleton]

theorem flatten_migEvents_count_beginTx (dir : MigrationDirection)
    (l : List PlannedMigration) :
    ((l.map (migEvents dir)).flatten).count Event.beginTx = l.length := by
  induction l with
  | nil => rfl
  | cons p l ih =>
    simp [List.count_append, migEvents_count_beginTx, ih]
    omega

theorem flatten_migEvents_count_commit (dir : MigrationDirection)
    (l : List PlannedMigration) :
    ((l.map (migEvents dir)).flatten).count Event.commit = l.length := by
  induction l with
  | nil => rfl
  | cons p l ih =>
    simp [List.count_append, migEvents_count_commit, ih]
    omega

/-- C4: when a statement of a planned migration fails, that migration's
transaction is rolled back (the trace ends in a rollback), no further
planned migrations are processed (exactly one transaction beyond the
committed ones was begun), and `ExecMax` returns the number of migrations
fully committed before the failure together with the failing error; the
committed migrations' effects — in particular their ledger records, for
direction `Up` — remain in place. -/
theorem execMax_stmt_failure (env : Env) (dialect : String)
    (source : List Migration) (dir : MigrationDirection) (maxN : Nat)
    (st : DbState) (pre : List PlannedMigration) (pm : PlannedMigration)
    (rest : List PlannedMigration) (s : String)
    (hplan : (PlanMigration dialect source dir maxN st).1 =
      Except.ok (pre ++ pm :: rest))
    (hpre : ∀ p ∈ pre, migSucceeds env dir p = true)
    (hbegin : env.beginFails pm.toMigration.Id = false)
    (hfail : firstFail env pm.Queries = some s) :
    (ExecMax env dialect source dir maxN st).applied = pre.length ∧
    (ExecMax env dialect source dir maxN st).err = some (stmtErr s) ∧
    (ExecMax env dialect source dir maxN st).db = runPlanned dir st pre ∧
    (ExecMax env dialect source dir maxN st).events.count Event.beginTx =
      pre.length + 1 ∧
    (ExecMax env dialect source dir maxN st).events.count Event.commit =
      pre.length ∧
    (ExecMax env dialect source dir maxN st).events.getLast? =
      some Event.rollback ∧
    (dir = MigrationDirection.Up → ∀ p ∈ pre,
      p.toMigration.Id ∈ (ExecMax env dialect source dir maxN st).db.ledger) := by
  obtain ⟨evs, hone, hevs⟩ :=
    @execOne_stmt_fail env dir (runPlanned dir st pre) pm s hbegin hfail
  have hloop : applyLoop env dir (pm :: rest) (runPlanned dir st pre)
      (0 + pre.length) =
      (pre.length, some (stmtErr s), runPlanned dir st pre,
       Event.beginTx :: (evs ++ [Event.rollback])) := by
    simp only [applyLoop, hone, Nat.zero_add]
  have hfull := applyLoop_append_ok env dir pre (pm :: rest) st 0 hpre
  rw [hloop] at hfull
  have hexec : ExecMax env dialect source dir maxN st =
      ⟨pre.length, some (stmtErr s), runPlanned dir st pre,
       [Event.createTable, Event.findMigrations, Event.selectRecord] ++
         ((pre.map (migEvents dir)).flatten ++
           (Event.beginTx :: (evs ++ [Event.rollback])))⟩ := by
    simp only [ExecMax, planMigration_ok_pair hplan, hfull]
  rw [hexec]
  have hevs0 : ∀ e, e = Event.beginTx ∨ e = Event.commit →
      evs.count e = 0 := by
    intro e he
    refine List.count_eq_zero.2 fun hmem => ?_
    obtain ⟨t, ht⟩ := hevs e hmem
    rcases he with rfl | rfl <;> cases ht
  refine ⟨rfl, rfl, rfl, ?_, ?_, ?_, ?_⟩
  · simp [List.count_append, List.count_cons,
      flatten_migEvents_count_beginTx, hevs0 Event.beginTx (Or.inl rfl)]
  · simp [List.count_append, List.count_cons,
      flatten_migEvents_count_commit, hevs0 Event.commit (Or.inr rfl)]
  · show (([Event.createTable, Event.findMigrations, Event.selectRecord] ++
      ((pre.map (migEvents dir)).flatten ++
        (Event.beginTx :: (evs ++ [Event.rollback])))).getLast? = _)
    rw [show Event.beginTx :: (evs ++ [Event.rollback]) =
      (Event.beginTx :: evs) ++ [Event.rollback] from rfl,
      ← List.append_assoc, ← List.append_assoc, List.getLast?_concat]
  · intro hdir p hp
    subst hdir
    show p.toMigration.Id ∈ (runPlanned MigrationDirection.Up st pre).ledger
    rw [runPlanned_up_ledger]
    exact List.mem_append_right _ (List.mem_map.2 ⟨p, hp, rfl⟩)

/-- Witness for `execMax_stmt_failure`: migration `001` commits, the
second statement of `002` fails, the batch stops with count 1 and `001`'s
ledger record in place. -/
theorem execMax_stmt_failure_witness :
    (ExecMax envBoom "sqlite3" [migA, migBad] MigrationDirection.Up 0
      ⟨[], []⟩).applied = 1 ∧
    (ExecMax envBoom "sqlite3" [migA, migBad] MigrationDirection.Up 0
      ⟨[], []⟩).err = some (stmtErr "BOOM") ∧
    (ExecMax envBoom "sqlite3" [migA, migBad] MigrationDirection.Up 0
      ⟨[], []⟩).events.getLast? = some Event.rollback ∧
    "001" ∈ (ExecMax envBoom "sqlite3" [migA, migBad] MigrationDirection.Up 0
      ⟨[], []⟩).db.ledger := by
  have h := execMax_stmt_failure envBoom "sqlite3" [migA, migBad]
    MigrationDirection.Up 0 ⟨[], []⟩
    [resolveQueries MigrationDirection.Up migA]
    (resolveQueries MigrationDirection.Up migBad) [] "BOOM"
    rfl (by decide) (by decide) (by decide)
  exact ⟨h.1, h.2.1, h.2.2.2.2.2.1,
    h.2.2.2.2.2.2 rfl (resolveQueries MigrationDirection.Up migA)
      (by decide)⟩

/-- C1 shows a divergence between spec and code: when the ledger-record
write fails after the statements succeeded, `ExecMax` stops and returns
the committed count and the error with the transaction's work not
committed — but it never issues the rollback the spec promises: the trace
contains a `beginTx` with neither `rollback` nor `commit`, i.e. the
transaction is abandoned open. -/
theorem execMax_insert_failure_no_rollback :
    (ExecMax envInsertFail "sqlite3" [migA] MigrationDirection.Up 0
      ⟨[], []⟩).applied = 0 ∧
    (ExecMax envInsertFail "sqlite3" [migA] MigrationDirection.Up 0
      ⟨[], []⟩).err = some "insert failed" ∧
    (ExecMax envInsertFail "sqlite3" [migA] MigrationDirection.Up 0
      ⟨[], []⟩).db = ⟨[], []⟩ ∧
    Event.rollback ∉ (ExecMax envInsertFail "sqlite3" [migA]
      MigrationDirection.Up 0 ⟨[], []⟩).events ∧
    (ExecMax envInsertFail "sqlite3" [migA] MigrationDirection.Up 0
      ⟨[], []⟩).events.count Event.beginTx = 1 ∧
    (ExecMax envInsertFail "sqlite3" [migA] MigrationDirection.Up 0
      ⟨[], []⟩).events.count Event.commit = 0 := by decide

/-- C7's counterexample: from the ledger state `["001"]` with definitions
`001` and `002`, `Up` applies only `002`, but `Down` then reverts both
definitions, leaving the ledger empty instead of restoring `["001"]`. -/
theorem execMax_roundtrip_counterexample :
    (ExecMax Env.ok "sqlite3" [migA, migB] MigrationDirection.Up 0
      ⟨["001"], []⟩).err = none ∧
    (ExecMax Env.ok "sqlite3" [migA, migB] MigrationDirection.Down 0
      (ExecMax Env.ok "sqlite3" [migA, migB] MigrationDirection.Up 0
        ⟨["001"], []⟩).db).err = none ∧
    (ExecMax Env.ok "sqlite3" [migA, migB] MigrationDirection.Down 0
      (ExecMax Env.ok "sqlite3" [migA, migB] MigrationDirection.Up 0
        ⟨["001"], []⟩).db).db.ledger = [] ∧
    (ExecMax Env.ok "sqlite3" [migA, migB] MigrationDirection.Down 0
      (ExecMax Env.ok "sqlite3" [migA, migB] MigrationDirection.Up 0
        ⟨["001"], []⟩).db).db.ledger ≠ ["001"] := by decide

/-! ### The sort, the watermark, and ledger erasure -/

theorem insertSorted_perm (m : Migration) (l : List Migration) :
    (insertSorted m l).Perm (m :: l) := by
  induction l with
  | nil => exact List.Perm.refl _
  | cons x xs ih =>
    simp only [insertSorted]
    by_cases h : migLe m x = true
    · rw [if_pos h]
    · rw [if_neg h]
      exact (ih.cons x).trans (List.Perm.swap m x xs)

theorem sortById_perm (l : List Migration) : (sortById l).Perm l := by
  induction l with
  | nil => exact List.Perm.refl _
  | cons m ms ih =>
    exact (insertSorted_perm m (sortById ms)).trans (ih.cons m)

theorem insertSorted_sorted (m : Migration) {l : List Migration}
    (hs : IdSorted l) : IdSorted (insertSorted m l) := by
  induction l with
  | nil => simp [insertSorted, IdSorted]
  | cons x xs ih =>
    simp only [insertSorted]
    by_cases h : migLe m x = true
    · rw [if_pos h]
      refine List.pairwise_cons.2 ⟨fun y hy => ?_, hs⟩
      rcases List.mem_cons.1 hy with rfl | hy
      · exact h
      · exact strLe_trans h ((List.pairwise_cons.1 hs).1 y hy)
    · rw [if_neg h]
      refine List.pairwise_cons.2 ⟨fun y hy => ?_, ih (List.pairwise_cons.1 hs).2⟩
      rcases List.mem_cons.1 ((insertSorted_perm m xs).mem_iff.1 hy) with rfl | hy2
      · exact strLe_of_not_strLe h
      · exact (List.pairwise_cons.1 hs).1 y hy2

theorem sortById_sorted (l : List Migration) : IdSorted (sortById l) := by
  induction l with
  | nil => exact List.Pairwise.nil
  | cons m ms ih => exact insertSorted_sorted m ih

theorem foldl_newest_le_acc (l : List String) :
    ∀ acc, strLe acc (l.foldl (fun a x => if strLe a x then x else a) acc) = true := by
  induction l with
  | nil => exact fun acc => strLe_refl acc
  | cons x xs ih =>
    intro acc
    show strLe acc (xs.foldl _ (if strLe acc x then x else acc)) = true
    by_cases h : strLe acc x = true
    · rw [if_pos h]
      exact strLe_trans h (ih x)
    · rw [if_neg h]
      exact ih acc

theorem foldl_newest_le_mem (l : List String) :
    ∀ acc x, x ∈ l →
      strLe x (l.foldl (fun a y => if strLe a y then y else a) acc) = true := by
  induction l with
  | nil => intro _ x hx; exact absurd hx (List.not_mem_nil x)
  | cons y ys ih =>
    intro acc x hx
    show strLe x (ys.foldl _ (if strLe acc y then y else acc)) = true
    rcases List.mem_cons.1 hx with rfl | hx'
    · have hstep : strLe x (if strLe acc x then x else acc) = true := by
        by_cases h : strLe acc x = true
        · rw [if_pos h]
          exact strLe_refl x
        · rw [if_neg h]
          exact strLe_of_not_strLe h
      exact strLe_trans hstep (foldl_newest_le_acc ys _)
    · exact ih _ x hx'

theorem newestRecord_le_mem {x : String} {l : List String} (h : x ∈ l) :
    strLe x (newestRecord l) = true :=
  foldl_newest_le_mem l "" x h

theorem newestRecord_append (l l' : List String) :
    strLe (newestRecord l) (newestRecord (l ++ l')) = true := by
  unfold newestRecord
  rw [List.foldl_append]
  exact foldl_newest_le_acc l' _

theorem foldl_erase_of_disjoint :
    ∀ (del L : List String), (∀ x ∈ del, x ∉ L) →
      del.foldl List.erase L = L := by
  intro del
  induction del with
  | nil => intro L _; rfl
  | cons d ds ih =>
    intro L h
    show ds.foldl List.erase (L.erase d) = L
    rw [List.erase_of_not_mem (h d (List.mem_cons_self d ds))]
    exact ih L fun x hx => h x (List.mem_cons_of_mem d hx)

theorem foldl_erase_elim :
    ∀ (del L tail : List String), (∀ x ∈ del, x ∉ L) → tail.Nodup →
      (∀ x ∈ tail, x ∈ del) → del.foldl List.erase (L ++ tail) = L := by
  intro del
  induction del with
  | nil =>
    intro L tail _ _ hsub
    have htail : tail = [] :=
      List.eq_nil_iff_forall_not_mem.2 fun x hx =>
        List.not_mem_nil x (hsub x hx)
    rw [htail, List.append_nil]
    rfl
  | cons d ds ih =>
    intro L tail hdisj hnd hsub
    show ds.foldl List.erase ((L ++ tail).erase d) = L
    by_cases hd : d ∈ tail
    · rw [List.erase_append_right tail (hdisj d (List.mem_cons_self d ds))]
      refine ih L (tail.erase d)
        (fun x hx => hdisj x (List.mem_cons_of_mem d hx))
        ((List.erase_sublist d tail).nodup hnd)
        (fun x hx => ?_)
      have hx' := hnd.mem_erase_iff.1 hx
      exact (List.mem_cons.1 (hsub x hx'.2)).resolve_left hx'.1
    · rw [List.erase_of_not_mem (fun hmem => by
        rcases List.mem_append.1 hmem with h' | h'
        · exact hdisj d (List.mem_cons_self d ds) h'
        · exact hd h')]
      exact ih L tail (fun x hx => hdisj x (List.mem_cons_of_mem d hx)) hnd
        (fun x hx =>
          (List.mem_cons.1 (hsub x hx)).resolve_left fun heq => hd (heq ▸ hx))

theorem plannedFor_nocap (source : List Migration) (dir : MigrationDirection)
    (st : DbState) :
    plannedFor source dir 0 st =
      (ToApply (sortById source) (newestRecord st.ledger) dir).map
        (resolveQueries dir) := by
  have h : plannedFor source dir 0 st =
      ((ToApply (sortById source) (newestRecord st.ledger) dir).take
        (if 0 < 0 ∧ 0 < (ToApply (sortById source) (newestRecord st.ledger)
          dir).length then 0
         else (ToApply (sortById source) (newestRecord st.ledger) dir).length)).map
        (resolveQueries dir) := rfl
  rw [h, if_neg (by omega), List.take_length]

theorem map_resolveQueries_id (dir : MigrationDirection) (l : List Migration) :
    (l.map (resolveQueries dir)).map (fun pm => pm.toMigration.Id) =
      l.map Migration.Id := by
  rw [List.map_map]
  rfl

/-- After a failure-free `Up` pass, every definition's id is `<=` the new
watermark. -/
theorem all_le_newest_up (source : List Migration) (st : DbState) :
    ∀ m ∈ sortById source,
      strLe m.Id (newestRecord (st.ledger ++
        (ToApply (sortById source) (newestRecord st.ledger)
          MigrationDirection.Up).map Migration.Id)) = true := by
  intro m hm
  have hS : ToApply (sortById source) (newestRecord st.ledger)
      MigrationDirection.Up =
      (sortById source).dropWhile (fun m => strLe m.Id (newestRecord st.ledger)) :=
    drop_scanIndex (sortById source) (newestRecord st.ledger)
  have hm' : m ∈ (sortById source).takeWhile
        (fun m => strLe m.Id (newestRecord st.ledger)) ++
      (sortById source).dropWhile
        (fun m => strLe m.Id (newestRecord st.ledger)) := by
    rw [List.takeWhile_append_dropWhile]
    exact hm
  rcases List.mem_append.1 hm' with h | h
  · have h1 := @List.mem_takeWhile_imp Migration
      (fun x => strLe x.Id (newestRecord st.ledger)) (sortById source) m h
    exact strLe_trans h1 (newestRecord_append st.ledger _)
  · refine newestRecord_le_mem (List.mem_append_right _ ?_)
    rw [hS]
    exact List.mem_map.2 ⟨m, h, rfl⟩

/-- C8: a failure-free `Up` run with no cap, immediately repeated with
the same definitions, plans and applies zero migrations the second time
and leaves the database exactly as the first run left it. -/
theorem execMax_up_idempotent (dialect : String) (source : List Migration)
    (st : DbState) (hd : dialect ∈ MigrationDialects) :
    (ExecMax Env.ok dialect source MigrationDirection.Up 0 st).err = none ∧
    (ExecMax Env.ok dialect source MigrationDirection.Up 0
      (ExecMax Env.ok dialect source MigrationDirection.Up 0 st).db).applied = 0 ∧
    (ExecMax Env.ok dialect source MigrationDirection.Up 0
      (ExecMax Env.ok dialect source MigrationDirection.Up 0 st).db).err = none ∧
    (ExecMax Env.ok dialect source MigrationDirection.Up 0
      (ExecMax Env.ok dialect source MigrationDirection.Up 0 st).db).db =
      (ExecMax Env.ok dialect source MigrationDirection.Up 0 st).db := by
  have h1 := execMax_envOk dialect source MigrationDirection.Up 0 st hd
  have hdb : (ExecMax Env.ok dialect source MigrationDirection.Up 0 st).db =
      runPlanned MigrationDirection.Up st
        (plannedFor source MigrationDirection.Up 0 st) := by
    rw [h1]
  have hled : (runPlanned MigrationDirection.Up st
      (plannedFor source MigrationDirection.Up 0 st)).ledger =
      st.ledger ++ (ToApply (sortById source) (newestRecord st.ledger)
        MigrationDirection.Up).map Migration.Id := by
    rw [runPlanned_up_ledger, plannedFor_nocap, map_resolveQueries_id]
  have hplanned2 : plannedFor source MigrationDirection.Up 0
      ((ExecMax Env.ok dialect source MigrationDirection.Up 0 st).db) = [] := by
    rw [plannedFor_nocap]
    have hnil : ToApply (sortById source)
        (newestRecord ((ExecMax Env.ok dialect source MigrationDirection.Up 0
          st).db).ledger) MigrationDirection.Up = [] := by
      show (sortById source).drop (scanIndex (sortById source) _) = []
      rw [drop_scanIndex, List.dropWhile_eq_nil_iff]
      intro x hx
      rw [hdb, hled]
      exact all_le_newest_up source st x hx
    rw [hnil]
    rfl
  have h2 := execMax_envOk dialect source MigrationDirection.Up 0
    ((ExecMax Env.ok dialect source MigrationDirection.Up 0 st).db) hd
  rw [hplanned2] at h2
  exact ⟨by rw [h1], by rw [h2]; rfl, by rw [h2], by rw [h2]; rfl⟩

/-- Witness for `execMax_up_idempotent` at a concrete input. -/
theorem execMax_up_idempotent_witness :
    (ExecMax Env.ok "sqlite3" [migA] MigrationDirection.Up 0 ⟨[], []⟩).err = none ∧
    (ExecMax Env.ok "sqlite3" [migA] MigrationDirection.Up 0
      (ExecMax Env.ok "sqlite3" [migA] MigrationDirection.Up 0
        ⟨[], []⟩).db).applied = 0 :=
  ⟨(execMax_up_idempotent "sqlite3" [migA] ⟨[], []⟩ (by decide)).1,
   (execMax_up_idempotent "sqlite3" [migA] ⟨[], []⟩ (by decide)).2.1⟩

/-- Ledger effect of a no-cap `Down` pass run right after a no-cap `Up`
pass, starting from a ledger disjoint from the definitions' ids. -/
theorem down_after_up_ledger (source : List Migration) (st : DbState)
    (hnodup : (source.map Migration.Id).Nodup)
    (hdisj : ∀ m ∈ source, m.Id ∉ st.ledger) :
    ((ToApply (sortById source)
        (newestRecord (st.ledger ++
          (ToApply (sortById source) (newestRecord st.ledger)
            MigrationDirection.Up).map Migration.Id))
        MigrationDirection.Down).map Migration.Id).foldl List.erase
      (st.ledger ++
        (ToApply (sortById source) (newestRecord st.ledger)
          MigrationDirection.Up).map Migration.Id) = st.ledger := by
  by_cases hnil : sortById source = []
  · rw [hnil]
    show ((ToApply [] _ MigrationDirection.Down).map Migration.Id).foldl
      List.erase (st.ledger ++ (ToApply [] _ MigrationDirection.Up).map
        Migration.Id) = st.ledger
    simp [ToApply, scanIndex]
  · have hall := all_le_newest_up source st
    have htw : (sortById source).takeWhile (fun m =>
        strLe m.Id (newestRecord (st.ledger ++
          (ToApply (sortById source) (newestRecord st.ledger)
            MigrationDirection.Up).map Migration.Id))) = sortById source :=
      List.takeWhile_eq_self_iff.2 hall
    have hscan : scanIndex (sortById source)
        (newestRecord (st.ledger ++
          (ToApply (sortById source) (newestRecord st.ledger)
            MigrationDirection.Up).map Migration.Id)) =
        (sortById source).length := by
      have ht := take_scanIndex (sortById source)
        (newestRecord (st.ledger ++
          (ToApply (sortById source) (newestRecord st.ledger)
            MigrationDirection.Up).map Migration.Id))
      rw [htw] at ht
      have h2 := scanIndex_le_length (sortById source)
        (newestRecord (st.ledger ++
          (ToApply (sortById source) (newestRecord st.ledger)
            MigrationDirection.Up).map Migration.Id))
      have h3 := congrArg List.length ht
      rw [List.length_take] at h3
      omega
    have hD : ToApply (sortById source)
        (newestRecord (st.ledger ++
          (ToApply (sortById source) (newestRecord st.ledger)
            MigrationDirection.Up).map Migration.Id))
        MigrationDirection.Down = (sortById source).reverse := by
      show (if scanIndex (sortById source) _ = 0 then []
        else ((sortById source).take (scanIndex (sortById source) _)).reverse) = _
      rw [hscan, if_neg (fun h0 => hnil (List.eq_nil_of_length_eq_zero h0)),
        List.take_length]
    rw [hD]
    have hsortedids : ((sortById source).map Migration.Id).Nodup :=
      (((sortById_perm source).map Migration.Id).symm).nodup hnodup
    have hsub : (ToApply (sortById source) (newestRecord st.ledger)
        MigrationDirection.Up).Sublist (sortById source) := by
      show ((sortById source).drop (scanIndex (sortById source)
        (newestRecord st.ledger))).Sublist (sortById source)
      rw [drop_scanIndex (sortById source) (newestRecord st.ledger)]
      exact List.dropWhile_sublist _
    refine foldl_erase_elim _ _ _ ?_ ?_ ?_
    · intro x hx
      obtain ⟨m, hm, rfl⟩ := List.mem_map.1 hx
      have hms : m ∈ sortById source := List.mem_reverse.1 hm
      exact hdisj m ((sortById_perm source).mem_iff.1 hms)
    · exact ((hsub.map Migration.Id)).nodup hsortedids
    · intro x hx
      obtain ⟨m, hm, rfl⟩ := List.mem_map.1 hx
      exact List.mem_map.2 ⟨m, List.mem_reverse.2 (hsub.subset hm), rfl⟩

/-- C7 amended: starting from a ledger holding no record for any of the
definitions' ids (e.g. a fresh database) and definitions with distinct
ids, a no-cap `Up` run followed by a no-cap `Down` run over the same set
restores the pre-`Up` ledger, with no residual records for the applied
migrations.  (From a ledger that already holds records for some of the
definitions this fails — see the counterexample — because `Down` reverts
every definition up to the post-`Up` watermark, not only those the `Up`
pass applied.) -/
theorem execMax_up_down_roundtrip (dialect : String) (source : List Migration)
    (st : DbState) (hd : dialect ∈ MigrationDialects)
    (hnodup : (source.map Migration.Id).Nodup)
    (hdisj : ∀ m ∈ source, m.Id ∉ st.ledger) :
    (ExecMax Env.ok dialect source MigrationDirection.Up 0 st).err = none ∧
    (ExecMax Env.ok dialect source MigrationDirection.Down 0
      (ExecMax Env.ok dialect source MigrationDirection.Up 0 st).db).err = none ∧
    (ExecMax Env.ok dialect source MigrationDirection.Down 0
      (ExecMax Env.ok dialect source MigrationDirection.Up 0 st).db).db.ledger =
      st.ledger ∧
    ∀ m ∈ source, m.Id ∉ (ExecMax Env.ok dialect source MigrationDirection.Down 0
      (ExecMax Env.ok dialect source MigrationDirection.Up 0 st).db).db.ledger := by
  have h1 := execMax_envOk dialect source MigrationDirection.Up 0 st hd
  have hdb : (ExecMax Env.ok dialect source MigrationDirection.Up 0 st).db =
      runPlanned MigrationDirection.Up st
        (plannedFor source MigrationDirection.Up 0 st) := by
    rw [h1]
  have hled1 : (runPlanned MigrationDirection.Up st
      (plannedFor source MigrationDirection.Up 0 st)).ledger =
      st.ledger ++ (ToApply (sortById source) (newestRecord st.ledger)
        MigrationDirection.Up).map Migration.Id := by
    rw [runPlanned_up_ledger, plannedFor_nocap, map_resolveQueries_id]
  have hsecond := execMax_envOk dialect source MigrationDirection.Down 0
    ((ExecMax Env.ok dialect source MigrationDirection.Up 0 st).db) hd
  have hledfinal : (ExecMax Env.ok dialect source MigrationDirection.Down 0
      ((ExecMax Env.ok dialect source MigrationDirection.Up 0 st).db)).db.ledger =
      st.ledger := by
    rw [hsecond]
    show (runPlanned MigrationDirection.Down
      ((ExecMax Env.ok dialect source MigrationDirection.Up 0 st).db)
      (plannedFor source MigrationDirection.Down 0
        ((ExecMax Env.ok dialect source MigrationDirection.Up 0 st).db))).ledger =
      st.ledger
    rw [runPlanned_down_ledger, plannedFor_nocap, map_resolveQueries_id,
      hdb, hled1]
    exact down_after_up_ledger source st hnodup hdisj
  exact ⟨by rw [h1], by rw [hsecond], hledfinal,
    fun m hm => hledfinal ▸ hdisj m hm⟩

/-- Witness for `execMax_up_down_roundtrip`: ledger `["000"]` holds no
record for `001`/`002`; `Up` then `Down` restores exactly `["000"]`. -/
theorem execMax_up_down_roundtrip_witness :
    (ExecMax Env.ok "sqlite3" [migA, migB] MigrationDirection.Down 0
      (ExecMax Env.ok "sqlite3" [migA, migB] MigrationDirection.Up 0
        ⟨["000"], []⟩).db).db.ledger = ["000"] ∧
    "001" ∉ (ExecMax Env.ok "sqlite3" [migA, migB] MigrationDirection.Down 0
      (ExecMax Env.ok "sqlite3" [migA, migB] MigrationDirection.Up 0
        ⟨["000"], []⟩).db).db.ledger := by
  have h := execMax_up_down_roundtrip "sqlite3" [migA, migB] ⟨["000"], []⟩
    (by decide) (by decide) (by decide)
  exact ⟨h.2.2.1, h.2.2.2 migA (by decide)⟩

end SqlMigrate
